import Mathlib

/-!
# Verification of the constexpr type-name extractor (`type-name.hpp`)

Shallow embedding of the string-processing core of `nsfx::type_name`:
the fixed-capacity string helper (`fixed_string_t`), the offset-calibration
arithmetic (`name_start_pos` / `num_appearance` / `num_misc_chars`), the raw
slice (`impl<T>::raw`), the decoration-stripping passes (`impl<T>::dry` and
`impl<T>::tidy`, MSVC branch), and the scope stripping (`impl<T>::base`).

Strings are modeled as `List Char`; `std::size_t` arithmetic is `Nat` with an
explicit `% 2^64` at the places where the source relies on unsigned wraparound
(`rfind`'s decrement-before-test loop and `dry`'s trailing-space strip).
Loops are embedded as fuel-indexed structural recursions; every wrapper passes
fuel that provably suffices (each loop iteration advances its position).
-/

set_option maxHeartbeats 1000000

namespace TypeName

/-- `2^64`, the modulus of `std::size_t` arithmetic on the supported targets. -/
def usizeMod : Nat := 2 ^ 64

/-- `fixed_string_t<N>::npos = (std::size_t)(-1)`. -/
def npos : Nat := 2 ^ 64 - 1

/-- Character at index `i` of `s`.  Positions beyond the logical length read
the zero padding of the underlying `fixed_string_t` buffer (the constructor
value-initializes `data_`), hence the default `'\x00'`. -/
def ch (s : List Char) (i : Nat) : Char := s.getD i (Char.ofNat 0)

/-- Embeds `nsfx::fixed_string_t<N>`: the buffer `data_` (modeled by its
character list, conceptually zero padded) plus the logical length `size_`. -/
structure fixed_string_t where
  data_ : List Char
  size_ : Nat

/-- The `do { ... } while (pos--)` loop of `fixed_string_t::rfind`, scanning
backwards from `pos`.  When the character is never found, the final `pos--`
at `pos = 0` wraps the unsigned counter around to `npos`. -/
def rfindGo (data : List Char) (c : Char) : Nat → Nat
  | 0 => if ch data 0 = c then 0 else npos
  | p + 1 => if ch data (p + 1) = c then p + 1 else rfindGo data c p

/-- Embeds `fixed_string_t::rfind`: `pos = size_ - 1` is computed first (for
`size_ = 0` the unsigned subtraction wraps to `npos`), then the loop runs only
when `size_` is nonzero. -/
def fixed_string_t.rfind (s : fixed_string_t) (c : Char) : Nat :=
  if s.size_ = 0 then (s.size_ + usizeMod - 1) % usizeMod
  else rfindGo s.data_ c (s.size_ - 1)

/-- Embeds `details::type_name::iskey`: `0-9a-zA-Z_`. -/
def iskey (c : Char) : Bool :=
  (decide ('0' ≤ c) && decide (c ≤ '9')) ||
  (decide ('A' ≤ c) && decide (c ≤ 'Z')) ||
  (decide ('a' ≤ c) && decide (c ≤ 'z')) ||
  decide ('_' = c)

/-- The first loop of `details::type_name::match`: the length of the longest
prefix of `sub` matching `str` starting at `pos`, reading only below `len`. -/
def matchCount (str : List Char) (pos len : Nat) : List Char → Nat
  | [] => 0
  | c :: rest =>
    if pos < len ∧ ch str pos = c then matchCount str (pos + 1) len rest + 1 else 0

/-- Embeds `details::type_name::match` (`sub` is the keyword without its null
terminator, so `L = K - 1 = sub.length`): a full delimited match returns the
keyword length, plus one if the immediately following character is a space;
a keyword that continues into a longer identifier returns `0`. -/
def matchTok (str : List Char) (pos len : Nat) (sub : List Char) : Nat :=
  let L := sub.length
  let n := matchCount str pos len sub
  if n ≠ L then 0
  else if pos + L ≠ len then
    if iskey (ch str (pos + L)) then 0
    else if ch str (pos + L) = ' ' then n + 1
    else n
  else n

/-- The four decoration keywords removed by `impl<T>::dry` / `impl<T>::tidy`. -/
def kws : List (List Char) :=
  [String.toList "enum", String.toList "class", String.toList "struct",
   String.toList "__cdecl"]

/-- The cascade of the four `match` calls at the top of each iteration of the
`dry`/`tidy` loops: the first nonzero removal length, else `0`. -/
def kwMatch (name : List Char) (pos len : Nat) : Nat :=
  let n1 := matchTok name pos len (String.toList "enum")
  if 0 < n1 then n1 else
  let n2 := matchTok name pos len (String.toList "class")
  if 0 < n2 then n2 else
  let n3 := matchTok name pos len (String.toList "struct")
  if 0 < n3 then n3 else
  matchTok name pos len (String.toList "__cdecl")

/-- Fuel-indexed body of the two copy-through `while` loops: the number of
consecutive positions from `pos` (below `len`) whose character satisfies `p`. -/
def runAux (p : Char → Bool) (name : List Char) (len : Nat) : Nat → Nat → Nat
  | 0, _ => 0
  | fuel + 1, pos =>
    if pos < len ∧ p (ch name pos) = true then runAux p name len fuel (pos + 1) + 1
    else 0

/-- Length of the maximal run of characters satisfying `p` starting at `pos`
(the extent of one `while (pos < len && p(name[pos]))` loop).  Fuel `len + 1`
always suffices because the run is at most `len - pos` long. -/
def runF (p : Char → Bool) (name : List Char) (len pos : Nat) : Nat :=
  runAux p name len (len + 1) pos

/-- The substring of `s` starting at `pos` with (at most) `k` characters. -/
def slice (s : List Char) (pos k : Nat) : List Char := (s.drop pos).take k

/-- Embeds the main loop of `impl<T>::dry` (MSVC branch): repeatedly remove
the matched keyword (advancing `pos` without counting), otherwise count and
skip the run of identifier characters then the run of non-identifier
characters; stop at `len`.  Returns the number of kept characters. -/
def cntGo (name : List Char) (len : Nat) : Nat → Nat → Nat
  | 0, _ => 0
  | fuel + 1, pos =>
    if len ≤ pos then 0
    else
      let n := kwMatch name pos len
      if 0 < n then cntGo name len fuel (pos + n)
      else
        let a := runF iskey name len pos
        let b := runF (fun c => !iskey c) name len (pos + a)
        a + b + cntGo name len fuel (pos + a + b)

/-- Ghost companion of `cntGo`: the kept characters themselves, in order. -/
def keptGo (name : List Char) (len : Nat) : Nat → Nat → List Char
  | 0, _ => []
  | fuel + 1, pos =>
    if len ≤ pos then []
    else
      let n := kwMatch name pos len
      if 0 < n then keptGo name len fuel (pos + n)
      else
        let a := runF iskey name len pos
        let b := runF (fun c => !iskey c) name len (pos + a)
        slice name pos (a + b) ++ keptGo name len fuel (pos + a + b)

/-- The trailing-space strip at the end of `impl<T>::dry`: the number of
iterations of `while (pos && name[pos - 1] == ' ') { --pos; --size; }`
starting from position `pos`. -/
def stripCount (name : List Char) : Nat → Nat
  | 0 => 0
  | pos + 1 => if ch name pos = ' ' then stripCount name pos + 1 else 0

/-- Embeds `impl<T>::dry` (MSVC branch) on the raw name `name` (the source's
`len` is `capacity_ - 1 = name.length`): count the kept characters, then
decrement `size` once per trailing space of the input, each decrement being
`std::size_t` arithmetic (hence the explicit `% 2^64`: each `--size` adds
`2^64 - 1` modulo `2^64`). -/
def dry (name : List Char) : Nat :=
  (cntGo name name.length (name.length + 1) 0 +
    (usizeMod - 1) * stripCount name name.length) % usizeMod

/-- Embeds the copy loop of `impl<T>::tidy` (MSVC branch): the same scan as
`dry`, but copying into `dst` and with every copy bounded by the remaining
budget `L - dst.length` (the `dst.size_ < L` conjunct of the two `while`
loops); the loop exits once `pos` reaches `len` or `dst` is full. -/
def tidyGo (name : List Char) (len L : Nat) : Nat → Nat → List Char → List Char
  | 0, _, dst => dst
  | fuel + 1, pos, dst =>
    if len ≤ pos ∨ L ≤ dst.length then dst
    else
      let n := kwMatch name pos len
      if 0 < n then tidyGo name len L fuel (pos + n) dst
      else
        let a := min (runF iskey name len pos) (L - dst.length)
        let b := min (runF (fun c => !iskey c) name len (pos + a)) (L - dst.length - a)
        tidyGo name len L fuel (pos + a + b) (dst ++ slice name pos (a + b))

/-- Embeds `impl<T>::tidy` (MSVC branch) on the raw name: copy `dry name`
kept characters. -/
def tidyMsvc (name : List Char) : List Char :=
  tidyGo name name.length (dry name) (name.length + 1) 0 []

/-- Embeds `impl<T>::tidy` (GCC/Clang branch): `return name;` — the identity. -/
def tidyGcc (name : List Char) : List Char := name

/-- The type-trait dispatch of `impl<T>::base`: which of the seven
`std::is_*_v<T>` tests hold for the instantiating type `T`. -/
structure TypeShape where
  is_const : Bool
  is_volatile : Bool
  is_array : Bool
  is_pointer : Bool
  is_reference : Bool
  is_function : Bool
  is_member_pointer : Bool

/-- The disjunction tested by the `if constexpr` of `impl<T>::base`. -/
def isQualified (sh : TypeShape) : Bool :=
  sh.is_const || sh.is_volatile || sh.is_array || sh.is_pointer ||
  sh.is_reference || sh.is_function || sh.is_member_pointer

/-- Embeds `impl<T>::base`, parameterized by the already-computed tidy name
(`name = tidy()`, of logical length `name.length`): qualified and compound
types return the tidy name unchanged; otherwise the suffix strictly after the
last `':'` is sliced out (`fixed_string_t<N>{name.data_ + pos + 1, N}` with
`N = capacity_ - pos - 1` copies exactly the characters after index `pos`). -/
def base (sh : TypeShape) (name : List Char) : List Char :=
  if isQualified sh then name
  else
    let pos := fixed_string_t.rfind ⟨name, name.length⟩ ':'
    if pos = npos then name else name.drop (pos + 1)

/-- The signature shape of one compiler family under the calibration
assumption (spec §4.1): for every instantiated type the compiler produces
`seg0 ++ name ++ r₁ ++ name ++ r₂ ++ ...` — boilerplate segments that are
byte-identical across instantiations, interleaved with `rest.length` verbatim
appearances of the type name. -/
structure SigShape where
  seg0 : List Char
  rest : List (List Char)

/-- The signature string the compiler produces for a type printed `name`
(the `string_view` returned by `full<T>::get()` / seen by `impl<T>::raw()`). -/
def sig (sh : SigShape) (name : List Char) : List Char :=
  sh.seg0 ++ (sh.rest.map (fun r => name ++ r)).flatten

/-- `std::string_view::find(sub)`: index of the first occurrence. -/
def findSubAux (sub : List Char) : List Char → Option Nat
  | [] => if sub.isPrefixOf ([] : List Char) then some 0 else none
  | c :: tl =>
    if sub.isPrefixOf (c :: tl) then some 0
    else (findSubAux sub tl).map (fun i => i + 1)

/-- Embeds `name_start_pos = full<int>::get().find("int")`. -/
def name_start_pos (sh : SigShape) : Nat :=
  (findSubAux (String.toList "int") (sig sh (String.toList "int"))).getD npos

/-- Embeds `num_appearance = full<void>::get().size() - full<int>::get().size()`. -/
def num_appearance (sh : SigShape) : Nat :=
  (sig sh (String.toList "void")).length - (sig sh (String.toList "int")).length

/-- Embeds `num_misc_chars = full<void>::get().size() - 4 * num_appearance`. -/
def num_misc_chars (sh : SigShape) : Nat :=
  (sig sh (String.toList "void")).length - 4 * num_appearance sh

/-- Embeds `impl<T>::raw`: slice `L = (N - 1 - num_misc_chars) / num_appearance`
characters starting at `name_start_pos` out of the signature (`N - 1` is the
signature length; the `fixed_string_t<L+1>` constructor copies exactly `L`
characters). -/
def raw (sh : SigShape) (name : List Char) : List Char :=
  slice (sig sh name) (name_start_pos sh)
    (((sig sh name).length - num_misc_chars sh) / num_appearance sh)

/-- Models the `constexpr` evaluation of `impl<T>::raw`: when
`num_appearance = 0`, the initializer
`constexpr std::size_t L = (N - 1 - num_misc_chars) / num_appearance` divides
by zero, which is not a constant expression — a hard build-time error, modeled
as `none`; otherwise extraction proceeds. -/
def rawChecked (sh : SigShape) (name : List Char) : Option (List Char) :=
  if num_appearance sh = 0 then none else some (raw sh name)

/-- `kw` occurs verbatim in `s` at position `p`. -/
def matchesAt (s : List Char) (p : Nat) (kw : List Char) : Prop :=
  p + kw.length ≤ s.length ∧ ∀ i < kw.length, ch s (p + i) = ch kw i

/-- `kw` occurs at `p` in `s` as a delimited whole word: preceded by
start-of-string or a non-identifier character, followed by end-of-string or a
non-identifier character. -/
def wholeAt (s : List Char) (p : Nat) (kw : List Char) : Prop :=
  matchesAt s p kw ∧ (p = 0 ∨ iskey (ch s (p - 1)) = false) ∧
    (p + kw.length = s.length ∨ iskey (ch s (p + kw.length)) = false)

/-- `s` contains no whole-word occurrence of any decoration keyword. -/
def noKw (s : List Char) : Prop := ∀ p < s.length, ∀ kw ∈ kws, ¬ wholeAt s p kw

instance (s : List Char) (p : Nat) (kw : List Char) : Decidable (matchesAt s p kw) :=
  inferInstanceAs (Decidable (_ ∧ _))

instance (s : List Char) (p : Nat) (kw : List Char) : Decidable (wholeAt s p kw) :=
  inferInstanceAs (Decidable (_ ∧ _))

instance (s : List Char) : Decidable (noKw s) :=
  inferInstanceAs (Decidable (∀ p < s.length, ∀ kw ∈ kws, ¬ wholeAt s p kw))

/-! ## Basic character/index lemmas -/

theorem ch_append_left {u : List Char} (v : List Char) {i : Nat} (h : i < u.length) :
    ch (u ++ v) i = ch u i := by
  unfold ch
  rw [List.getD_eq_getElem?_getD, List.getD_eq_getElem?_getD, List.getElem?_append]
  simp [h]

theorem ch_append_right {u : List Char} (v : List Char) {i : Nat} (h : u.length ≤ i) :
    ch (u ++ v) i = ch v (i - u.length) := by
  unfold ch
  rw [List.getD_eq_getElem?_getD, List.getD_eq_getElem?_getD, List.getElem?_append]
  simp [Nat.not_lt.mpr h]

theorem ch_take {s : List Char} {k i : Nat} (h : i < k) : ch (s.take k) i = ch s i := by
  unfold ch
  rw [List.getD_eq_getElem?_getD, List.getD_eq_getElem?_getD, List.getElem?_take]
  simp [h]

theorem ch_slice {s : List Char} {pos k i : Nat} (h : i < k) :
    ch (slice s pos k) i = ch s (pos + i) := by
  unfold slice
  rw [ch_take h]
  unfold ch
  rw [List.getD_eq_getElem?_getD, List.getD_eq_getElem?_getD, List.getElem?_drop]

theorem length_slice (s : List Char) (pos k : Nat) :
    (slice s pos k).length = min k (s.length - pos) := by
  simp [slice]

theorem length_slice_of_le {s : List Char} {pos k : Nat} (h : pos + k ≤ s.length) :
    (slice s pos k).length = k := by
  rw [length_slice]
  omega

theorem ch_nil (i : Nat) : ch [] i = Char.ofNat 0 := by
  unfold ch
  cases i <;> rfl

theorem ch_beyond {s : List Char} {i : Nat} (h : s.length ≤ i) : ch s i = Char.ofNat 0 := by
  unfold ch
  rw [List.getD_eq_getElem?_getD, List.getElem?_eq_none (by omega)]
  rfl

theorem iskey_nul : iskey (Char.ofNat 0) = false := by decide

theorem iskey_space : iskey ' ' = false := by decide

/-! ## Characterization of the `while (pos < len && p(name[pos]))` runs -/

theorem runAux_stop {p : Char → Bool} {name : List Char} {len pos : Nat}
    (h : ¬(pos < len ∧ p (ch name pos) = true)) (fuel : Nat) :
    runAux p name len fuel pos = 0 := by
  cases fuel with
  | zero => rfl
  | succ f => simp only [runAux, if_neg h]

theorem runAux_cond {p : Char → Bool} {name : List Char} {len pos : Nat}
    (h : pos < len ∧ p (ch name pos) = true) (fuel : Nat) :
    runAux p name len (fuel + 1) pos = runAux p name len fuel (pos + 1) + 1 := by
  simp only [runAux, if_pos h]

theorem runAux_fuel {p : Char → Bool} {name : List Char} {len : Nat} :
    ∀ f g pos, len ≤ f + pos → len ≤ g + pos →
      runAux p name len f pos = runAux p name len g pos := by
  intro f
  induction f with
  | zero =>
    intro g pos hf _
    rw [runAux, runAux_stop (by omega) g]
  | succ f ih =>
    intro g pos hf hg
    by_cases h : pos < len ∧ p (ch name pos) = true
    · cases g with
      | zero => omega
      | succ g' =>
        rw [runAux_cond h, runAux_cond h, ih g' (pos + 1) (by omega) (by omega)]
    · rw [runAux_stop h, runAux_stop h]

theorem runF_cond {p : Char → Bool} {name : List Char} {len pos : Nat}
    (h : pos < len ∧ p (ch name pos) = true) :
    runF p name len pos = runF p name len (pos + 1) + 1 := by
  unfold runF
  rw [runAux_cond h, runAux_fuel len (len + 1) (pos + 1) (by omega) (by omega)]

theorem runF_stop {p : Char → Bool} {name : List Char} {len pos : Nat}
    (h : ¬(pos < len ∧ p (ch name pos) = true)) : runF p name len pos = 0 :=
  runAux_stop h (len + 1)

theorem runAux_le {p : Char → Bool} {name : List Char} {len : Nat} :
    ∀ fuel pos, runAux p name len fuel pos ≤ len - pos := by
  intro fuel
  induction fuel with
  | zero => intro pos; simp [runAux]
  | succ f ih =>
    intro pos
    by_cases h : pos < len ∧ p (ch name pos) = true
    · rw [runAux_cond h]
      have := ih (pos + 1)
      omega
    · rw [runAux_stop h]
      omega

theorem runF_le {p : Char → Bool} (name : List Char) (len pos : Nat) :
    runF p name len pos ≤ len - pos :=
  runAux_le (len + 1) pos

theorem runAux_mem {p : Char → Bool} {name : List Char} {len : Nat} :
    ∀ fuel pos i, i < runAux p name len fuel pos →
      pos + i < len ∧ p (ch name (pos + i)) = true := by
  intro fuel
  induction fuel with
  | zero => intro pos i h; simp [runAux] at h
  | succ f ih =>
    intro pos i h
    by_cases hc : pos < len ∧ p (ch name pos) = true
    · rw [runAux_cond hc] at h
      cases i with
      | zero => simpa using hc
      | succ i' =>
        have := ih (pos + 1) i' (by omega)
        constructor <;> [omega; (rw [show pos + (i' + 1) = pos + 1 + i' by omega]; exact this.2)]
    · rw [runAux_stop hc] at h
      omega

theorem runF_mem {p : Char → Bool} {name : List Char} {len pos i : Nat}
    (h : i < runF p name len pos) : pos + i < len ∧ p (ch name (pos + i)) = true :=
  runAux_mem (len + 1) pos i h

theorem runAux_max {p : Char → Bool} {name : List Char} {len : Nat} :
    ∀ fuel pos, len ≤ fuel + pos → pos + runAux p name len fuel pos < len →
      p (ch name (pos + runAux p name len fuel pos)) = false := by
  intro fuel
  induction fuel with
  | zero => intro pos hf h; rw [runAux] at h ⊢; omega
  | succ f ih =>
    intro pos hf h
    by_cases hc : pos < len ∧ p (ch name pos) = true
    · rw [runAux_cond hc] at h ⊢
      have := ih (pos + 1) (by omega) (by omega)
      rw [show pos + (runAux p name len f (pos + 1) + 1) =
        pos + 1 + runAux p name len f (pos + 1) by omega]
      exact this
    · rw [runAux_stop hc] at h ⊢
      simp only [Nat.add_zero] at h ⊢
      by_cases hb : p (ch name pos) = true
      · exact absurd ⟨h, hb⟩ hc
      · exact Bool.eq_false_iff.mpr hb

theorem runF_max {p : Char → Bool} {name : List Char} {len pos : Nat}
    (h : pos + runF p name len pos < len) :
    p (ch name (pos + runF p name len pos)) = false :=
  runAux_max (len + 1) pos (by omega) h

theorem runF_pos {p : Char → Bool} {name : List Char} {len pos : Nat}
    (h1 : pos < len) (h2 : p (ch name pos) = true) : 0 < runF p name len pos := by
  rw [runF_cond ⟨h1, h2⟩]
  omega

/-! ## Characterization of `match` and of the keyword cascade -/

theorem matchCount_le {str : List Char} {len : Nat} :
    ∀ sub pos, matchCount str pos len sub ≤ sub.length := by
  intro sub
  induction sub with
  | nil => intro pos; simp [matchCount]
  | cons c rest ih =>
    intro pos
    by_cases h : pos < len ∧ ch str pos = c
    · simp only [matchCount, if_pos h, List.length_cons]
      have := ih (pos + 1)
      omega
    · simp only [matchCount, if_neg h, List.length_cons]
      omega

theorem matchCount_full_iff {str : List Char} {len : Nat} :
    ∀ sub pos, matchCount str pos len sub = sub.length ↔
      ∀ i < sub.length, pos + i < len ∧ ch str (pos + i) = ch sub i := by
  intro sub
  induction sub with
  | nil => intro pos; simp [matchCount]
  | cons c rest ih =>
    intro pos
    by_cases h : pos < len ∧ ch str pos = c
    · simp only [matchCount, if_pos h, List.length_cons]
      rw [Nat.add_right_cancel_iff, ih (pos + 1)]
      constructor
      · intro hall i hi
        cases i with
        | zero =>
          refine ⟨by omega, ?_⟩
          simpa [ch] using h.2
        | succ i' =>
          have := hall i' (by omega)
          refine ⟨by omega, ?_⟩
          rw [show pos + (i' + 1) = pos + 1 + i' by omega, this.2]
          simp [ch]
      · intro hall i hi
        have := hall (i + 1) (by omega)
        refine ⟨by omega, ?_⟩
        rw [show pos + 1 + i = pos + (i + 1) by omega, this.2]
        simp [ch]
    · simp only [matchCount, if_neg h, List.length_cons]
      constructor
      · omega
      · intro hall
        have h0 := hall 0 (by omega)
        simp only [Nat.add_zero] at h0
        exact absurd ⟨h0.1, by simpa [ch] using h0.2⟩ h

theorem matchTok_pos {str sub : List Char} {pos len : Nat}
    (h : 0 < matchTok str pos len sub) :
    matchCount str pos len sub = sub.length ∧
    (pos + sub.length = len ∨ iskey (ch str (pos + sub.length)) = false) ∧
    (matchTok str pos len sub = sub.length ∨
      matchTok str pos len sub = sub.length + 1) := by
  have h1 : matchCount str pos len sub = sub.length := by
    by_contra h1
    simp only [matchTok, if_pos h1] at h
    omega
  refine ⟨h1, ?_, ?_⟩
  · by_cases h2 : pos + sub.length = len
    · exact Or.inl h2
    · right
      by_contra h3
      have h3' : iskey (ch str (pos + sub.length)) = true := by
        by_cases hb : iskey (ch str (pos + sub.length)) = true
        · exact hb
        · exact absurd (Bool.eq_false_iff.mpr hb) h3
      simp only [matchTok, if_neg (by omega : ¬ matchCount str pos len sub ≠ sub.length),
        if_pos (by omega : pos + sub.length ≠ len), if_pos h3'] at h
      omega
  · by_cases h2 : pos + sub.length = len
    · left
      simp only [matchTok, if_neg (by omega : ¬ matchCount str pos len sub ≠ sub.length),
        if_neg (by omega : ¬ pos + sub.length ≠ len)]
      exact h1
    · by_cases h3 : iskey (ch str (pos + sub.length)) = true
      · simp only [matchTok, if_neg (by omega : ¬ matchCount str pos len sub ≠ sub.length),
          if_pos (by omega : pos + sub.length ≠ len), if_pos h3] at h
        omega
      · have hval : matchTok str pos len sub =
            if ch str (pos + sub.length) = ' ' then matchCount str pos len sub + 1
            else matchCount str pos len sub := by
          simp only [matchTok, if_neg (by omega : ¬ matchCount str pos len sub ≠ sub.length),
            if_pos (by omega : pos + sub.length ≠ len), if_neg h3]
        by_cases h4 : ch str (pos + sub.length) = ' '
        · rw [hval, if_pos h4, h1]
          omega
        · rw [hval, if_neg h4, h1]
          omega

theorem matchTok_of_match {str sub : List Char} {pos len : Nat}
    (hmc : matchCount str pos len sub = sub.length)
    (hr : pos + sub.length = len ∨ iskey (ch str (pos + sub.length)) = false) :
    sub.length ≤ matchTok str pos len sub := by
  by_cases h2 : pos + sub.length = len
  · simp only [matchTok, if_neg (by omega : ¬ matchCount str pos len sub ≠ sub.length),
      if_neg (by omega : ¬ pos + sub.length ≠ len)]
    omega
  · have hr' : iskey (ch str (pos + sub.length)) = false := by
      rcases hr with hr | hr
      · omega
      · exact hr
    simp only [matchTok, if_neg (by omega : ¬ matchCount str pos len sub ≠ sub.length),
      if_pos (by omega : pos + sub.length ≠ len),
      if_neg (by simp [hr'] : ¬ iskey (ch str (pos + sub.length)) = true)]
    by_cases h4 : ch str (pos + sub.length) = ' '
    · rw [if_pos h4]
      omega
    · rw [if_neg h4]
      omega

theorem matchTok_bound {str sub : List Char} {pos len : Nat}
    (hne : sub ≠ []) (h : 0 < matchTok str pos len sub) :
    pos + matchTok str pos len sub ≤ len := by
  obtain ⟨hmc, _, hval⟩ := matchTok_pos h
  have hlen : 0 < sub.length := List.length_pos.mpr hne
  have hin := (matchCount_full_iff sub pos).mp hmc (sub.length - 1) (by omega)
  have hle : pos + sub.length ≤ len := by omega
  rcases hval with hv | hv
  · omega
  · have h2 : pos + sub.length ≠ len := by
      intro hEq
      simp only [matchTok, if_neg (by omega : ¬ matchCount str pos len sub ≠ sub.length),
        if_neg (by omega : ¬ pos + sub.length ≠ len)] at hv
      omega
    omega

theorem kws_ne_nil : ∀ kw ∈ kws, kw ≠ [] := by decide

theorem kws_len_pos : ∀ kw ∈ kws, 0 < kw.length := by decide

theorem kws_key : ∀ kw ∈ kws, ∀ i < kw.length, iskey (ch kw i) = true := by decide

theorem kwMatch_eq_zero {name : List Char} {pos len : Nat}
    (h : kwMatch name pos len = 0) : ∀ kw ∈ kws, matchTok name pos len kw = 0 := by
  simp only [kwMatch] at h
  intro kw hkw
  simp only [kws, List.mem_cons, List.not_mem_nil, or_false] at hkw
  split_ifs at h with h1 h2 h3 <;>
    rcases hkw with rfl | rfl | rfl | rfl <;> omega

theorem kwMatch_pos {name : List Char} {pos len : Nat}
    (h : 0 < kwMatch name pos len) :
    ∃ kw ∈ kws, 0 < matchTok name pos len kw ∧
      kwMatch name pos len = matchTok name pos len kw := by
  simp only [kwMatch] at h ⊢
  split_ifs at h ⊢ with h1 h2 h3
  · exact ⟨String.toList "enum", by simp [kws], h1, rfl⟩
  · exact ⟨String.toList "class", by simp [kws], h2, rfl⟩
  · exact ⟨String.toList "struct", by simp [kws], h3, rfl⟩
  · exact ⟨String.toList "__cdecl", by simp [kws], h, rfl⟩

theorem kwMatch_pos_of {name kw : List Char} {pos len : Nat}
    (hkw : kw ∈ kws) (h : 0 < matchTok name pos len kw) : 0 < kwMatch name pos len := by
  by_contra hc
  have h0 : kwMatch name pos len = 0 := by omega
  have := kwMatch_eq_zero h0 kw hkw
  omega

theorem kwMatch_bound {name : List Char} {pos len : Nat}
    (h : 0 < kwMatch name pos len) : pos + kwMatch name pos len ≤ len := by
  obtain ⟨kw, hkw, hpos, heq⟩ := kwMatch_pos h
  rw [heq]
  exact matchTok_bound (kws_ne_nil kw hkw) hpos

/-! ## Basic facts about the counting/keeping scan -/

theorem keptGo_at_end {name : List Char} {len pos : Nat} (h : len ≤ pos) (fuel : Nat) :
    keptGo name len fuel pos = [] := by
  cases fuel with
  | zero => rfl
  | succ f => simp only [keptGo, if_pos h]

theorem cntGo_at_end {name : List Char} {len pos : Nat} (h : len ≤ pos) (fuel : Nat) :
    cntGo name len fuel pos = 0 := by
  cases fuel with
  | zero => rfl
  | succ f => simp only [cntGo, if_pos h]

theorem runs_progress {name : List Char} {len pos : Nat} (h : pos < len) :
    0 < runF iskey name len pos +
      runF (fun c => !iskey c) name len (pos + runF iskey name len pos) := by
  by_cases hk : iskey (ch name pos) = true
  · have := runF_pos h hk
    omega
  · have ha : runF iskey name len pos = 0 := runF_stop (fun hc => hk hc.2)
    rw [ha]
    have hb : (fun c => !iskey c) (ch name pos) = true := by
      simp [Bool.eq_false_iff.mpr hk]
    have := runF_pos (p := fun c => !iskey c) h hb
    simp only [Nat.add_zero, Nat.zero_add]
    omega

theorem length_keptGo {name : List Char} {len : Nat} (hlen : len ≤ name.length) :
    ∀ fuel pos, (keptGo name len fuel pos).length = cntGo name len fuel pos := by
  intro fuel
  induction fuel with
  | zero => intro pos; rfl
  | succ f ih =>
    intro pos
    by_cases hp : len ≤ pos
    · simp only [keptGo, cntGo, if_pos hp, List.length_nil]
    · simp only [keptGo, cntGo, if_neg hp]
      by_cases hm : 0 < kwMatch name pos len
      · simp only [if_pos hm]
        exact ih (pos + kwMatch name pos len)
      · simp only [if_neg hm, List.length_append, ih]
        have ha := runF_le (p := iskey) name len pos
        have hb := runF_le (p := fun c => !iskey c) name len
          (pos + runF iskey name len pos)
        rw [length_slice_of_le (by omega)]

theorem cntGo_le {name : List Char} {len : Nat} :
    ∀ fuel pos, cntGo name len fuel pos ≤ len - pos := by
  intro fuel
  induction fuel with
  | zero => intro pos; simp [cntGo]
  | succ f ih =>
    intro pos
    by_cases hp : len ≤ pos
    · rw [cntGo_at_end hp]
      omega
    · simp only [cntGo, if_neg hp]
      by_cases hm : 0 < kwMatch name pos len
      · simp only [if_pos hm]
        have := ih (pos + kwMatch name pos len)
        omega
      · simp only [if_neg hm]
        have ha := runF_le (p := iskey) name len pos
        have hb := runF_le (p := fun c => !iskey c) name len
          (pos + runF iskey name len pos)
        have := ih (pos + runF iskey name len pos +
          runF (fun c => !iskey c) name len (pos + runF iskey name len pos))
        omega

/-! ## The copy pass as a prefix of the kept characters -/

theorem tidyGo_full {name : List Char} {len L : Nat} :
    ∀ fuel pos dst, L ≤ dst.length → tidyGo name len L fuel pos dst = dst := by
  intro fuel pos dst h
  cases fuel with
  | zero => rfl
  | succ f => simp only [tidyGo, if_pos (Or.inr h)]

theorem tidyGo_content {name : List Char} {len L : Nat} (hlen : len ≤ name.length) :
    ∀ fuel pos dst, dst.length ≤ L →
      tidyGo name len L fuel pos dst =
        dst ++ (keptGo name len fuel pos).take (L - dst.length) := by
  intro fuel
  induction fuel with
  | zero => intro pos dst _; simp [tidyGo, keptGo]
  | succ f ih =>
    intro pos dst hdst
    by_cases hg : len ≤ pos ∨ L ≤ dst.length
    · rw [tidyGo, if_pos hg]
      rcases hg with hg | hg
      · rw [keptGo, if_pos hg]
        simp
      · rw [show L - dst.length = 0 by omega]
        simp
    · push_neg at hg
      obtain ⟨hp, hfull⟩ := hg
      rw [tidyGo, if_neg (by omega : ¬ (len ≤ pos ∨ L ≤ dst.length))]
      rw [keptGo, if_neg (by omega : ¬ len ≤ pos)]
      by_cases hm : 0 < kwMatch name pos len
      · simp only [if_pos hm]
        exact ih (pos + kwMatch name pos len) dst hdst
      · simp only [if_neg hm]
        set A := runF iskey name len pos with hA
        set budget := L - dst.length with hbudget
        have hApos : pos + A ≤ len := by
          have := runF_le (p := iskey) name len pos
          omega
        set B := runF (fun c => !iskey c) name len (pos + A) with hB
        have hBpos : pos + A + B ≤ len := by
          have := runF_le (p := fun c => !iskey c) name len (pos + A)
          omega
        have hseg : (slice name pos (A + B)).length = A + B :=
          length_slice_of_le (by omega)
        by_cases hcap : A ≤ budget
        · -- the identifier run is copied whole
          rw [show min A budget = A by omega]
          by_cases hcap2 : A + B ≤ budget
          · rw [show min B (budget - A) = B by omega]
            rw [ih (pos + A + B) (dst ++ slice name pos (A + B))
              (by rw [List.length_append, hseg]; omega)]
            rw [List.take_append_eq_append_take, List.append_assoc]
            congr 2
            · exact (List.take_of_length_le (by rw [hseg]; omega)).symm
            · congr 1
              rw [List.length_append, hseg]
              omega
          · -- the budget runs out inside the non-identifier run
            rw [show min B (budget - A) = budget - A by omega]
            rw [tidyGo_full f _ _
              (by rw [List.length_append, length_slice_of_le (by omega)]; omega)]
            rw [List.take_append_eq_append_take]
            rw [show budget - (slice name pos (A + B)).length = 0 by omega]
            rw [List.take_zero, List.append_nil]
            rw [show A + (budget - A) = budget by omega]
            congr 1
            unfold slice
            rw [List.take_take, show min budget (A + B) = budget by omega]
        · -- the budget runs out inside the identifier run
          rw [show min A budget = budget by omega]
          rw [show budget - budget = 0 from by omega]
          rw [show min (runF (fun c => !iskey c) name len (pos + budget)) 0 = 0 by omega]
          rw [tidyGo_full f _ _
            (by rw [List.length_append, length_slice_of_le (by omega)]; omega)]
          rw [List.take_append_eq_append_take]
          rw [show budget - (slice name pos (A + B)).length = 0 by omega]
          rw [List.take_zero, List.append_nil]
          rw [Nat.add_zero]
          congr 1
          unfold slice
          rw [List.take_take, show min budget (A + B) = budget by omega]

/-- `impl<T>::tidy` copies exactly the first `dry` kept characters. -/
theorem tidyMsvc_eq_take (name : List Char) :
    tidyMsvc name =
      (keptGo name name.length (name.length + 1) 0).take (dry name) := by
  unfold tidyMsvc
  rw [tidyGo_content (Nat.le_refl _) (name.length + 1) 0 [] (by simp)]
  simp

/-! ## No whole-word keyword survives the scan -/

theorem wholeAt_nil {p : Nat} {kw : List Char} (hkw : kw ∈ kws) :
    ¬ wholeAt [] p kw := by
  intro hw
  have hpos := kws_len_pos kw hkw
  have h1 := hw.1.1
  simp only [List.length_nil] at h1
  omega

theorem noKw_keptGo {name : List Char} {len : Nat} (hlen : len ≤ name.length) :
    ∀ fuel pos p kw, kw ∈ kws → ¬ wholeAt (keptGo name len fuel pos) p kw := by
  intro fuel
  induction fuel with
  | zero =>
    intro pos p kw hkw
    exact wholeAt_nil hkw
  | succ f ih =>
    intro pos p kw hkw hw
    by_cases hp : len ≤ pos
    · rw [keptGo_at_end hp] at hw
      exact wholeAt_nil hkw hw
    by_cases hm : 0 < kwMatch name pos len
    · simp only [keptGo, if_neg hp, if_pos hm] at hw
      exact ih (pos + kwMatch name pos len) p kw hkw hw
    simp only [keptGo, if_neg hp, if_neg hm] at hw
    set A := runF iskey name len pos with hA
    set B := runF (fun c => !iskey c) name len (pos + A) with hB
    set rest := keptGo name len f (pos + A + B) with hrest
    set s := slice name pos (A + B) ++ rest with hs
    have hApos : pos + A ≤ len := by
      have := runF_le (p := iskey) name len pos
      omega
    have hABpos : pos + A + B ≤ len := by
      have := runF_le (p := fun c => !iskey c) name len (pos + A)
      omega
    have hseg : (slice name pos (A + B)).length = A + B :=
      length_slice_of_le (by omega)
    obtain ⟨⟨hmlen, hmch⟩, hleft, hright⟩ := hw
    have hslen : s.length = (A + B) + rest.length := by
      rw [hs, List.length_append, hseg]
    have hkwpos : 0 < kw.length := kws_len_pos kw hkw
    by_cases hpin : A + B ≤ p
    · -- the occurrence lies entirely inside the tail of the scan
      have ihr : ¬ wholeAt rest (p - (A + B)) kw := by
        rw [hrest]
        exact ih (pos + A + B) (p - (A + B)) kw hkw
      apply ihr
      refine ⟨⟨by omega, ?_⟩, ?_, ?_⟩
      · intro i hi
        have hcc := hmch i hi
        rw [hs, ch_append_right _ (by omega : (slice name pos (A + B)).length ≤ p + i)]
          at hcc
        rw [show p - (A + B) + i = p + i - (slice name pos (A + B)).length by omega]
        exact hcc
      · rcases hleft with h0 | hnk
        · left
          omega
        · by_cases hp0 : p = A + B
          · left
            omega
          · right
            rw [hs, ch_append_right _
              (by omega : (slice name pos (A + B)).length ≤ p - 1)] at hnk
            rw [show p - (A + B) - 1 = p - 1 - (slice name pos (A + B)).length by omega]
            exact hnk
      · rcases hright with hend | hnk
        · left
          rw [hslen] at hend
          omega
        · right
          rw [hs, ch_append_right _
            (by omega : (slice name pos (A + B)).length ≤ p + kw.length)] at hnk
          rw [show p - (A + B) + kw.length =
            p + kw.length - (slice name pos (A + B)).length by omega]
          exact hnk
    · -- the occurrence starts inside the copied segment
      push_neg at hpin
      have hch_seg : ∀ i < A + B, ch s i = ch name (pos + i) := by
        intro i hi
        rw [hs, ch_append_left _ (by omega), ch_slice hi]
      have hk0 : iskey (ch kw 0) = true := kws_key kw hkw 0 hkwpos
      have hchp : ch name (pos + p) = ch kw 0 := by
        rw [← hch_seg p hpin]
        simpa using hmch 0 hkwpos
      by_cases hpa : A ≤ p
      · -- a keyword cannot start on a non-identifier character
        have hmem := @runF_mem (fun c => !iskey c) name len (pos + A) (p - A) (by omega)
        rw [show pos + A + (p - A) = pos + p by omega] at hmem
        have hfalse : iskey (ch name (pos + p)) = false := by
          simpa using hmem.2
        rw [hchp, hk0] at hfalse
        simp at hfalse
      · push_neg at hpa
        -- left-delimitedness forces the occurrence to start the key run
        have hp0 : p = 0 := by
          by_contra hne
          rcases hleft with h0 | hnk
          · exact hne h0
          · have hkey := (@runF_mem iskey name len pos (p - 1) (by omega)).2
            rw [hch_seg (p - 1) (by omega)] at hnk
            simp [hnk] at hkey
        subst hp0
        -- the keyword must cover the key run exactly
        have hkwA : kw.length = A := by
          rcases Nat.lt_trichotomy kw.length A with hlt | heq | hgt
          · exfalso
            have hkey := (@runF_mem iskey name len pos kw.length hlt).2
            rcases hright with hend | hnk
            · rw [hslen] at hend
              omega
            · rw [show (0 : Nat) + kw.length = kw.length by omega] at hnk
              rw [hch_seg kw.length (by omega)] at hnk
              simp [hnk] at hkey
          · exact heq
          · exfalso
            by_cases hb0 : 0 < B
            · have hnkey := (@runF_mem (fun c => !iskey c) name len (pos + A) 0 hb0).2
              rw [Nat.add_zero] at hnkey
              have hnkey' : iskey (ch name (pos + A)) = false := by
                simpa using hnkey
              have hkA : iskey (ch kw A) = true := kws_key kw hkw A hgt
              have hcc := hmch A (by omega)
              rw [show (0 : Nat) + A = A by omega] at hcc
              rw [hch_seg A (by omega)] at hcc
              rw [hcc, hkA] at hnkey'
              simp at hnkey'
            · have hB0 : B = 0 := by omega
              have hposA : pos + A = len := by
                by_contra hne
                have hlt2 : pos + A < len := by omega
                have hmax := @runF_max iskey name len pos (by omega)
                have : 0 < runF (fun c => !iskey c) name len (pos + A) := by
                  apply runF_pos hlt2
                  rw [← hA] at hmax
                  simp [hmax]
                omega
              have hrest0 : rest = [] := by
                rw [hrest]
                exact keptGo_at_end (by omega) f
              rw [hslen, hrest0] at hmlen
              simp only [List.length_nil] at hmlen
              omega
        -- the whole key run matches the keyword: `match` would have removed it
        have hmc : matchCount name pos len kw = kw.length := by
          rw [matchCount_full_iff]
          intro i hi
          have hmem := @runF_mem iskey name len pos i (by omega)
          refine ⟨hmem.1, ?_⟩
          have hcc := hmch i (by omega)
          rw [show (0 : Nat) + i = i by omega] at hcc
          rw [hch_seg i (by omega)] at hcc
          exact hcc
        have hrd : pos + kw.length = len ∨ iskey (ch name (pos + kw.length)) = false := by
          rw [hkwA]
          by_cases hend : pos + A = len
          · exact Or.inl hend
          · right
            have := @runF_max iskey name len pos (by omega)
            rw [← hA] at this
            exact this
        have hle := matchTok_of_match hmc hrd
        have hposTok : 0 < matchTok name pos len kw := by omega
        exact hm (kwMatch_pos_of hkw hposTok)

/-! ## The trailing-space strip only discards non-identifier characters -/

theorem stripCount_le {name : List Char} : ∀ pos, stripCount name pos ≤ pos := by
  intro pos
  induction pos with
  | zero => simp [stripCount]
  | succ p ih =>
    rw [stripCount]
    split_ifs <;> omega

theorem stripCount_spaces {name : List Char} :
    ∀ pos j, pos - stripCount name pos ≤ j → j < pos → ch name j = ' ' := by
  intro pos
  induction pos with
  | zero => intro j _ h; omega
  | succ p ih =>
    intro j h1 h2
    rw [stripCount] at h1
    by_cases hc : ch name p = ' '
    · rw [if_pos hc] at h1
      by_cases hj : j = p
      · rw [hj]
        exact hc
      · exact ih j (by have := @stripCount_le name p; omega) (by omega)
    · rw [if_neg hc] at h1
      omega

theorem runF_ge {p : Char → Bool} {name : List Char} {len : Nat} :
    ∀ k pos, (∀ i < k, pos + i < len ∧ p (ch name (pos + i)) = true) →
      k ≤ runF p name len pos := by
  intro k
  induction k with
  | zero => intro pos _; omega
  | succ k' ih =>
    intro pos h
    have h0 := h 0 (by omega)
    rw [Nat.add_zero] at h0
    rw [runF_cond h0]
    have := ih (pos + 1) (fun i hi => by
      have := h (i + 1) (by omega)
      rwa [show pos + (i + 1) = pos + 1 + i by omega] at this)
    omega

/-- Inside the all-space suffix singled out by the trailing strip, the scan
keeps every remaining character (one non-identifier run up to `len`). -/
theorem keptGo_space_suffix {name : List Char} {len : Nat} (_hlen : len ≤ name.length) :
    ∀ fuel q, len - q < fuel → len - stripCount name len ≤ q →
      keptGo name len fuel q = slice name q (len - q) := by
  intro fuel q hfuel hq
  cases fuel with
  | zero => omega
  | succ f =>
    by_cases hql : len ≤ q
    · rw [keptGo_at_end hql, show len - q = 0 by omega]
      simp [slice]
    · have hsp : ∀ i < len - q, ch name (q + i) = ' ' := fun i hi =>
        stripCount_spaces len (q + i) (by omega) (by omega)
      have hm : ¬ 0 < kwMatch name q len := by
        intro hm
        obtain ⟨kw, hkw, htok, _⟩ := kwMatch_pos hm
        obtain ⟨hmc, _, _⟩ := matchTok_pos htok
        have hkwpos := kws_len_pos kw hkw
        have h0 := (matchCount_full_iff kw q).mp hmc 0 hkwpos
        rw [Nat.add_zero] at h0
        have hk0 := kws_key kw hkw 0 hkwpos
        have := hsp 0 (by omega)
        rw [Nat.add_zero] at this
        rw [← h0.2, this, iskey_space] at hk0
        simp at hk0
      have ha : runF iskey name len q = 0 := by
        apply runF_stop
        intro hc
        have := hsp 0 (by omega)
        rw [Nat.add_zero] at this
        rw [this, iskey_space] at hc
        simp at hc
      have hb : runF (fun c => !iskey c) name len (q + 0) = len - q := by
        rw [Nat.add_zero]
        have hle := runF_le (p := fun c => !iskey c) name len q
        have hcond : ∀ i < len - q,
            q + i < len ∧ (fun c => !iskey c) (ch name (q + i)) = true := by
          intro i hi
          refine ⟨by omega, ?_⟩
          rw [hsp i hi]
          simp [iskey_space]
        have hge := runF_ge (p := fun c => !iskey c) (len - q) q hcond
        omega
      simp only [keptGo, if_neg hql, if_neg hm, ha, hb]
      rw [show (0 : Nat) + (len - q) = len - q by omega,
        show q + 0 + (len - q) = len by omega]
      rw [keptGo_at_end (Nat.le_refl len) f, List.append_nil]

/-- When the input ends in `t ≥ 1` trailing spaces, at least `t - 1` of them
are kept from any scan position at or before the start of the space suffix
(at most one trailing space can be consumed by a keyword match). -/
theorem keptGo_len_ge {name : List Char} {len : Nat} (hlen : len ≤ name.length)
    (ht : 1 ≤ stripCount name len) :
    ∀ fuel posq, len - posq < fuel → posq ≤ len - stripCount name len →
      stripCount name len - 1 ≤ (keptGo name len fuel posq).length := by
  have htle := @stripCount_le name len
  intro fuel
  induction fuel with
  | zero => intro posq h1 h2; omega
  | succ f ih =>
    intro posq hfuel hq
    have hp : ¬ len ≤ posq := by omega
    by_cases hm : 0 < kwMatch name posq len
    · simp only [keptGo, if_neg hp, if_pos hm]
      -- the jump stays inside the keyword region, overrunning the space
      -- suffix by at most one consumed space
      obtain ⟨kw, hkw, htok, heq⟩ := kwMatch_pos hm
      obtain ⟨hmc, _, hval⟩ := matchTok_pos htok
      have hkwpos := kws_len_pos kw hkw
      have hkwreg : posq + kw.length ≤ len - stripCount name len := by
        by_contra hc
        push_neg at hc
        have hi : len - stripCount name len - posq < kw.length := by omega
        have hfull := (matchCount_full_iff kw posq).mp hmc
          (len - stripCount name len - posq) hi
        have hkey := kws_key kw hkw (len - stripCount name len - posq) hi
        have hsp : ch name (posq + (len - stripCount name len - posq)) = ' ' :=
          stripCount_spaces len _ (by omega) (by omega)
        rw [hsp] at hfull
        rw [← hfull.2, iskey_space] at hkey
        simp at hkey
      have hjump : posq + kwMatch name posq len ≤ len - stripCount name len + 1 := by
        rw [heq]
        omega
      by_cases hin : posq + kwMatch name posq len ≤ len - stripCount name len
      · exact ih (posq + kwMatch name posq len) (by omega) hin
      · have hq1 : posq + kwMatch name posq len = len - stripCount name len + 1 := by
          omega
        rw [hq1, keptGo_space_suffix hlen f _ (by omega) (by omega)]
        rw [length_slice_of_le (by omega)]
        omega
    · simp only [keptGo, if_neg hp, if_neg hm, List.length_append]
      set A := runF iskey name len posq with hA
      set B := runF (fun c => !iskey c) name len (posq + A) with hB
      have hApos : posq + A ≤ len := by
        have := runF_le (p := iskey) name len posq
        omega
      have hABpos : posq + A + B ≤ len := by
        have := runF_le (p := fun c => !iskey c) name len (posq + A)
        omega
      have hprog := @runs_progress name len posq (by omega)
      rw [← hA, ← hB] at hprog
      have hseg : (slice name posq (A + B)).length = A + B :=
        length_slice_of_le (by omega)
      rw [hseg]
      have hkeyreg : posq + A ≤ len - stripCount name len := by
        by_cases ha0 : A = 0
        · omega
        · have hkey := (@runF_mem iskey name len posq (A - 1) (by omega)).2
          by_contra hc
          push_neg at hc
          have hsp : ch name (posq + (A - 1)) = ' ' :=
            stripCount_spaces len _ (by omega) (by omega)
          rw [hsp, iskey_space] at hkey
          simp at hkey
      by_cases hin : posq + A + B ≤ len - stripCount name len
      · have := ih (posq + A + B) (by omega) hin
        omega
      · -- the non-identifier run swallows the whole space suffix
        have hend : posq + A + B = len := by
          by_contra hc
          have hlt : posq + A + B < len := by omega
          have hmax := @runF_max (fun c => !iskey c) name len (posq + A) (by omega)
          rw [← hB] at hmax
          have hsp : ch name (posq + A + B) = ' ' :=
            stripCount_spaces len _ (by omega) (by omega)
          rw [hsp] at hmax
          simp [iskey_space] at hmax
        omega

/-- Every kept identifier character is followed by at least `stripCount` more
kept characters: the trailing strip never cuts into an identifier run. -/
theorem keptGo_keys_early {name : List Char} {len : Nat} (hlen : len ≤ name.length)
    (ht : 1 ≤ stripCount name len) :
    ∀ fuel posq i, len - posq < fuel →
      iskey (ch (keptGo name len fuel posq) i) = true →
      i + stripCount name len < (keptGo name len fuel posq).length := by
  have htle := @stripCount_le name len
  intro fuel
  induction fuel with
  | zero => intro posq i h1 h2; omega
  | succ f ih =>
    intro posq i hfuel hkey
    by_cases hp : len ≤ posq
    · rw [keptGo_at_end hp] at hkey
      rw [ch_nil, iskey_nul] at hkey
      simp at hkey
    by_cases hm : 0 < kwMatch name posq len
    · simp only [keptGo, if_neg hp, if_pos hm] at hkey ⊢
      have hbound := kwMatch_bound hm
      exact ih (posq + kwMatch name posq len) i (by omega) hkey
    simp only [keptGo, if_neg hp, if_neg hm] at hkey ⊢
    set A := runF iskey name len posq with hA
    set B := runF (fun c => !iskey c) name len (posq + A) with hB
    set rest := keptGo name len f (posq + A + B) with hrest
    have hApos : posq + A ≤ len := by
      have := runF_le (p := iskey) name len posq
      omega
    have hABpos : posq + A + B ≤ len := by
      have := runF_le (p := fun c => !iskey c) name len (posq + A)
      omega
    have hprog := @runs_progress name len posq (by omega)
    rw [← hA, ← hB] at hprog
    have hseg : (slice name posq (A + B)).length = A + B :=
      length_slice_of_le (by omega)
    rw [List.length_append, hseg]
    by_cases hiseg : i < A + B
    · rw [ch_append_left _ (by omega), ch_slice hiseg] at hkey
      by_cases hia : A ≤ i
      · exfalso
        have hmem := (@runF_mem (fun c => !iskey c) name len (posq + A) (i - A) (by omega)).2
        rw [show posq + A + (i - A) = posq + i by omega] at hmem
        rw [hkey] at hmem
        simp at hmem
      · push_neg at hia
        -- a kept identifier character lies before the space suffix
        have hkeyreg : posq + A ≤ len - stripCount name len := by
          have hkeyA := (@runF_mem iskey name len posq (A - 1) (by omega)).2
          by_contra hc
          push_neg at hc
          have hsp : ch name (posq + (A - 1)) = ' ' :=
            stripCount_spaces len _ (by omega) (by omega)
          rw [hsp, iskey_space] at hkeyA
          simp at hkeyA
        have hAltlen : posq + A < len := by omega
        have hbpos : 0 < B := by
          have hmax := @runF_max iskey name len posq (by omega)
          rw [← hA] at hmax
          apply runF_pos hAltlen
          simp [hmax]
        by_cases hend : posq + A + B = len
        · -- the non-identifier run runs to the end, covering all `t` spaces
          omega
        · have hlt : posq + A + B < len := by omega
          have hmax := @runF_max (fun c => !iskey c) name len (posq + A) (by omega)
          rw [← hB] at hmax
          have hkey2 : iskey (ch name (posq + A + B)) = true := by
            by_cases hb : iskey (ch name (posq + A + B)) = true
            · exact hb
            · exfalso
              have hbt : (fun c => !iskey c) (ch name (posq + A + B)) = true := by
                simp [Bool.eq_false_iff.mpr hb]
              rw [hbt] at hmax
              simp at hmax
          have hreg2 : posq + A + B ≤ len - stripCount name len := by
            by_contra hc
            push_neg at hc
            have hsp : ch name (posq + A + B) = ' ' :=
              stripCount_spaces len _ (by omega) (by omega)
            rw [hsp, iskey_space] at hkey2
            simp at hkey2
          have hlen2 := keptGo_len_ge hlen ht f (posq + A + B) (by omega) hreg2
          rw [← hrest] at hlen2
          omega
    · push_neg at hiseg
      rw [ch_append_right _ (by omega)] at hkey
      rw [hseg] at hkey
      have := ih (posq + A + B) (i - (A + B)) (by omega) hkey
      rw [← hrest] at this
      omega

/-! ## Evaluating the wrapped `size_t` arithmetic of `dry` -/

theorem dry_eq_sub {name : List Char} (hW : name.length < usizeMod)
    (h : stripCount name name.length ≤ cntGo name name.length (name.length + 1) 0) :
    dry name =
      cntGo name name.length (name.length + 1) 0 - stripCount name name.length := by
  unfold dry
  have hcnt : cntGo name name.length (name.length + 1) 0 ≤ name.length := by
    have := @cntGo_le name name.length (name.length + 1) 0
    omega
  have hsplit : cntGo name name.length (name.length + 1) 0 +
      (usizeMod - 1) * stripCount name name.length =
      (cntGo name name.length (name.length + 1) 0 - stripCount name name.length) +
        stripCount name name.length * usizeMod := by
    simp only [usizeMod]
    omega
  rw [hsplit, Nat.add_mul_mod_self_right]
  apply Nat.mod_eq_of_lt
  simp only [usizeMod] at hW ⊢
  omega

theorem dry_ge_underflow {name : List Char} (hW : name.length < usizeMod)
    (h : cntGo name name.length (name.length + 1) 0 < stripCount name name.length) :
    cntGo name name.length (name.length + 1) 0 ≤ dry name := by
  unfold dry
  have htle : stripCount name name.length ≤ name.length := stripCount_le _
  have hsplit : cntGo name name.length (name.length + 1) 0 +
      (usizeMod - 1) * stripCount name name.length =
      (usizeMod - (stripCount name name.length -
        cntGo name name.length (name.length + 1) 0)) +
        (stripCount name name.length - 1) * usizeMod := by
    simp only [usizeMod] at hW ⊢
    omega
  rw [hsplit, Nat.add_mul_mod_self_right]
  rw [Nat.mod_eq_of_lt (by simp only [usizeMod] at hW ⊢; omega)]
  simp only [usizeMod] at hW ⊢
  omega

/-! ## The tidy name contains no whole-word decoration keyword -/

theorem noKw_take {s : List Char} {L : Nat}
    (hnk : ∀ p kw, kw ∈ kws → ¬ wholeAt s p kw)
    (hcut : L < s.length → iskey (ch s L) = false) :
    ∀ p kw, kw ∈ kws → ¬ wholeAt (s.take L) p kw := by
  intro p kw hkw hw
  by_cases hL : s.length ≤ L
  · rw [List.take_of_length_le hL] at hw
    exact hnk p kw hkw hw
  push_neg at hL
  have hkwpos := kws_len_pos kw hkw
  have htk : (s.take L).length = L := by
    rw [List.length_take]
    omega
  obtain ⟨⟨hmlen, hmch⟩, hleft, hright⟩ := hw
  rw [htk] at hmlen
  apply hnk p kw hkw
  refine ⟨⟨by omega, ?_⟩, ?_, ?_⟩
  · intro i hi
    have := hmch i hi
    rw [ch_take (by omega)] at this
    exact this
  · rcases hleft with h0 | hnkd
    · exact Or.inl h0
    · right
      rw [ch_take (by omega : p - 1 < L)] at hnkd
      exact hnkd
  · by_cases hcmp : p + kw.length < L
    · right
      rcases hright with hend | hnkd
      · rw [htk] at hend
        omega
      · rw [ch_take hcmp] at hnkd
        exact hnkd
    · right
      have hpe : p + kw.length = L := by omega
      rw [hpe]
      exact hcut hL

theorem noKw_tidyMsvc {name : List Char} (hW : name.length < usizeMod) :
    noKw (tidyMsvc name) := by
  rw [tidyMsvc_eq_take]
  intro p _ kw hkw
  have hlen : name.length ≤ name.length := Nat.le_refl _
  have hkl : (keptGo name name.length (name.length + 1) 0).length =
      cntGo name name.length (name.length + 1) 0 := length_keptGo hlen _ 0
  have hcle : cntGo name name.length (name.length + 1) 0 ≤ name.length := by
    have := @cntGo_le name name.length (name.length + 1) 0
    omega
  apply noKw_take (fun p kw hkw => noKw_keptGo hlen (name.length + 1) 0 p kw hkw)
    ?_ p kw hkw
  intro hlt
  rw [hkl] at hlt
  by_cases hut : stripCount name name.length ≤ cntGo name name.length (name.length + 1) 0
  · have hdry := dry_eq_sub hW hut
    by_cases ht0 : stripCount name name.length = 0
    · rw [ht0, Nat.sub_zero] at hdry
      omega
    · by_cases hkb : iskey (ch (keptGo name name.length (name.length + 1) 0)
        (dry name)) = true
      · exfalso
        have := keptGo_keys_early hlen (by omega) (name.length + 1) 0 (dry name)
          (by omega) hkb
        rw [hkl] at this
        omega
      · exact Bool.eq_false_iff.mpr hkb
  · push_neg at hut
    have := dry_ge_underflow hW hut
    omega

/-! ## A keyword-free input passes through the scan unchanged -/

theorem noKw_kwMatch_zero {y : List Char} (hnk : noKw y) :
    ∀ p, (p = 0 ∨ iskey (ch y (p - 1)) = false) → kwMatch y p y.length = 0 := by
  intro p hdelim
  by_contra hc
  have hpos : 0 < kwMatch y p y.length := by omega
  obtain ⟨kw, hkw, htok, _⟩ := kwMatch_pos hpos
  obtain ⟨hmc, hrd, _⟩ := matchTok_pos htok
  have hkwpos := kws_len_pos kw hkw
  have hfull := (matchCount_full_iff kw p).mp hmc
  have hlast := hfull (kw.length - 1) (by omega)
  have hple : p + kw.length ≤ y.length := by omega
  exact hnk p (by omega) kw hkw
    ⟨⟨hple, fun i hi => (hfull i hi).2⟩, hdelim, hrd⟩

theorem keptGo_copy_all {y : List Char}
    (H : ∀ p, (p = 0 ∨ iskey (ch y (p - 1)) = false) → kwMatch y p y.length = 0) :
    ∀ fuel pos, y.length - pos < fuel →
      (pos = 0 ∨ iskey (ch y (pos - 1)) = false) →
      keptGo y y.length fuel pos = y.drop pos := by
  intro fuel
  induction fuel with
  | zero => intro pos h1 _; omega
  | succ f ih =>
    intro pos hfuel hdelim
    by_cases hp : y.length ≤ pos
    · rw [keptGo_at_end hp, List.drop_eq_nil_of_le hp]
    have hm : ¬ 0 < kwMatch y pos y.length := by
      rw [H pos hdelim]
      omega
    simp only [keptGo, if_neg hp, if_neg hm]
    set A := runF iskey y y.length pos with hA
    set B := runF (fun c => !iskey c) y y.length (pos + A) with hB
    have hApos : pos + A ≤ y.length := by
      have := runF_le (p := iskey) y y.length pos
      omega
    have hABpos : pos + A + B ≤ y.length := by
      have := runF_le (p := fun c => !iskey c) y y.length (pos + A)
      omega
    have hprog := @runs_progress y y.length pos (by omega)
    rw [← hA, ← hB] at hprog
    by_cases hb0 : B = 0
    · -- the identifier run reaches the end of the string
      have hend : pos + A = y.length := by
        by_contra hc
        have hlt : pos + A < y.length := by omega
        have hmax := @runF_max iskey y y.length pos (by omega)
        rw [← hA] at hmax
        have : 0 < runF (fun c => !iskey c) y y.length (pos + A) := by
          apply runF_pos hlt
          simp [hmax]
        omega
      have hpos2 : pos + A + B = y.length := by omega
      rw [hpos2, keptGo_at_end (Nat.le_refl _) f, List.append_nil]
      have hAB : A + B = y.length - pos := by omega
      rw [hAB]
      unfold slice
      rw [List.take_of_length_le (by simp)]
    · -- the non-identifier run ends at a fresh delimiter
      have hdel2 : pos + A + B = 0 ∨ iskey (ch y (pos + A + B - 1)) = false := by
        right
        have hmem := (@runF_mem (fun c => !iskey c) y y.length (pos + A) (B - 1) (by omega)).2
        rw [show pos + A + (B - 1) = pos + A + B - 1 by omega] at hmem
        simpa using hmem
      rw [ih (pos + A + B) (by omega) hdel2]
      unfold slice
      rw [show pos + A + B = pos + (A + B) by omega, ← List.drop_drop]
      exact List.take_append_drop (A + B) (y.drop pos)

/-- On a keyword-free input with no trailing space the MSVC tidy pass is the
identity. -/
theorem tidyMsvc_of_noKw {y : List Char} (hW : y.length < usizeMod)
    (hnk : noKw y) (ht0 : stripCount y y.length = 0) : tidyMsvc y = y := by
  have hkept : keptGo y y.length (y.length + 1) 0 = y := by
    rw [keptGo_copy_all (noKw_kwMatch_zero hnk) (y.length + 1) 0 (by omega)
      (Or.inl rfl)]
    rfl
  have hcnt : cntGo y y.length (y.length + 1) 0 = y.length := by
    rw [← length_keptGo (Nat.le_refl _) (y.length + 1) 0, hkept]
  have hdry : dry y = y.length := by
    rw [dry_eq_sub hW (by omega), ht0, hcnt]
    omega
  rw [tidyMsvc_eq_take, hkept, hdry, List.take_of_length_le (Nat.le_refl _)]

/-! ## Characterization of the backward search -/

theorem rfindGo_none {data : List Char} {c : Char} :
    ∀ pos, (∀ j ≤ pos, ch data j ≠ c) → rfindGo data c pos = npos := by
  intro pos
  induction pos with
  | zero =>
    intro h
    rw [rfindGo, if_neg (h 0 (Nat.le_refl 0))]
  | succ p ih =>
    intro h
    rw [rfindGo, if_neg (h (p + 1) (Nat.le_refl _))]
    exact ih fun j hj => h j (by omega)

theorem rfindGo_found {data : List Char} {c : Char} :
    ∀ pos, (∃ j ≤ pos, ch data j = c) →
      rfindGo data c pos ≤ pos ∧ ch data (rfindGo data c pos) = c ∧
        ∀ j, rfindGo data c pos < j → j ≤ pos → ch data j ≠ c := by
  intro pos
  induction pos with
  | zero =>
    intro h
    obtain ⟨j, hj, hc⟩ := h
    have : j = 0 := by omega
    subst this
    rw [rfindGo, if_pos hc]
    exact ⟨Nat.le_refl 0, hc, fun j h1 h2 => by omega⟩
  | succ p ih =>
    intro h
    by_cases hc : ch data (p + 1) = c
    · rw [rfindGo, if_pos hc]
      exact ⟨Nat.le_refl _, hc, fun j h1 h2 => by omega⟩
    · rw [rfindGo, if_neg hc]
      obtain ⟨j, hj, hcj⟩ := h
      have hj' : j ≤ p := by
        rcases Nat.lt_or_ge j (p + 1) with h1 | h1
        · omega
        · exfalso
          have : j = p + 1 := by omega
          subst this
          exact hc hcj
      obtain ⟨h1, h2, h3⟩ := ih ⟨j, hj', hcj⟩
      refine ⟨by omega, h2, fun k hk1 hk2 => ?_⟩
      by_cases hke : k = p + 1
      · subst hke
        exact hc
      · exact h3 k hk1 (by omega)

theorem rfind_spec_found (s : fixed_string_t) (c : Char)
    (hex : ∃ i < s.size_, ch s.data_ i = c) :
    s.rfind c < s.size_ ∧ ch s.data_ (s.rfind c) = c ∧
      ∀ j < s.size_, s.rfind c < j → ch s.data_ j ≠ c := by
  obtain ⟨i, hi, hc⟩ := hex
  have hs0 : s.size_ ≠ 0 := by omega
  unfold fixed_string_t.rfind
  rw [if_neg hs0]
  obtain ⟨h1, h2, h3⟩ := rfindGo_found (s.size_ - 1) ⟨i, by omega, hc⟩
  exact ⟨by omega, h2, fun j hj hgt => h3 j hgt (by omega)⟩

theorem rfind_spec_none (s : fixed_string_t) (c : Char)
    (hnone : s.size_ = 0 ∨ ∀ i < s.size_, ch s.data_ i ≠ c) :
    s.rfind c = npos := by
  unfold fixed_string_t.rfind
  by_cases hs0 : s.size_ = 0
  · rw [if_pos hs0, hs0]
    simp only [usizeMod, npos]
    omega
  · rw [if_neg hs0]
    rcases hnone with h | h
    · exact absurd h hs0
    · exact rfindGo_none (s.size_ - 1) fun j hj => h j (by omega)

theorem ch_mem_iff {s : List Char} {c : Char} :
    c ∈ s ↔ ∃ i < s.length, ch s i = c := by
  constructor
  · intro h
    obtain ⟨i, hi, he⟩ := List.getElem_of_mem h
    refine ⟨i, hi, ?_⟩
    unfold ch
    rw [List.getD_eq_getElem?_getD, List.getElem?_eq_getElem hi]
    exact he
  · rintro ⟨i, hi, he⟩
    unfold ch at he
    rw [List.getD_eq_getElem?_getD, List.getElem?_eq_getElem hi] at he
    rw [← he]
    exact List.getElem_mem hi

/-! ## The calibration algebra over a signature shape -/

theorem flatten_map_length (n : List Char) :
    ∀ rs : List (List Char),
      ((rs.map (fun r => n ++ r)).flatten).length =
        rs.length * n.length + (rs.map List.length).sum := by
  intro rs
  induction rs with
  | nil => simp
  | cons r rs ih =>
    simp only [List.map_cons, List.flatten_cons, List.length_append, ih,
      List.length_cons, List.sum_cons, Nat.succ_mul]
    omega

theorem sig_length (sh : SigShape) (n : List Char) :
    (sig sh n).length =
      sh.seg0.length + ((sh.rest.map List.length).sum + sh.rest.length * n.length) := by
  unfold sig
  rw [List.length_append, flatten_map_length]
  omega

theorem num_appearance_eq (sh : SigShape) : num_appearance sh = sh.rest.length := by
  unfold num_appearance
  rw [sig_length, sig_length]
  have h4 : (String.toList "void").length = 4 := by decide
  have h3 : (String.toList "int").length = 3 := by decide
  rw [h4, h3]
  omega

theorem num_misc_chars_eq (sh : SigShape) :
    num_misc_chars sh = sh.seg0.length + (sh.rest.map List.length).sum := by
  unfold num_misc_chars
  rw [num_appearance_eq, sig_length]
  have h4 : (String.toList "void").length = 4 := by decide
  rw [h4]
  omega

theorem raw_recovers (sh : SigShape) (n : List Char)
    (happ : 0 < num_appearance sh)
    (hcal : findSubAux (String.toList "int") (sig sh (String.toList "int")) =
      some sh.seg0.length) :
    raw sh n = n := by
  unfold raw
  have hstart : name_start_pos sh = sh.seg0.length := by
    unfold name_start_pos
    rw [hcal]
    rfl
  have hlen : ((sig sh n).length - num_misc_chars sh) / num_appearance sh = n.length := by
    rw [sig_length, num_misc_chars_eq, num_appearance_eq]
    rw [num_appearance_eq] at happ
    rw [show sh.seg0.length + ((sh.rest.map List.length).sum + sh.rest.length * n.length) -
      (sh.seg0.length + (sh.rest.map List.length).sum) = sh.rest.length * n.length by omega]
    exact Nat.mul_div_cancel_left n.length happ
  rw [hstart, hlen]
  rw [num_appearance_eq] at happ
  obtain ⟨r, rs, hrest⟩ : ∃ r rs, sh.rest = r :: rs := by
    cases hr : sh.rest with
    | nil => rw [hr] at happ; simp at happ
    | cons r rs => exact ⟨r, rs, rfl⟩
  unfold slice sig
  rw [List.drop_left, hrest]
  simp only [List.map_cons, List.flatten_cons]
  rw [List.append_assoc]
  exact List.take_left n _

theorem ch_drop (s : List Char) (k i : Nat) : ch (s.drop k) i = ch s (k + i) := by
  unfold ch
  rw [List.getD_eq_getElem?_getD, List.getD_eq_getElem?_getD, List.getElem?_drop]

/-! ## Claims -/

/-- C1: for every signature shape with `appearance_count > 0` and byte-identical
boilerplate (both built into `SigShape`), and with the calibration find landing
on the first appearance, `raw` equals the slice of the signature starting at
`name_start_pos` with length `(L_T - num_misc_chars) / num_appearance`, and that
slice is exactly the type's printed name. -/
theorem c1_raw_slice_recovers_name (sh : SigShape) (n : List Char)
    (happ : 0 < num_appearance sh)
    (hcal : findSubAux (String.toList "int") (sig sh (String.toList "int")) =
      some sh.seg0.length) :
    raw sh n = slice (sig sh n) (name_start_pos sh)
      (((sig sh n).length - num_misc_chars sh) / num_appearance sh) ∧
    raw sh n = n :=
  ⟨rfl, raw_recovers sh n happ hcal⟩

theorem c1_witness :
    0 < num_appearance ⟨String.toList "A<", [String.toList "|", String.toList ">"]⟩ ∧
    findSubAux (String.toList "int")
      (sig ⟨String.toList "A<", [String.toList "|", String.toList ">"]⟩
        (String.toList "int")) = some (String.toList "A<").length ∧
    raw ⟨String.toList "A<", [String.toList "|", String.toList ">"]⟩
      (String.toList "bool") = String.toList "bool" :=
  ⟨by decide, by decide,
   (c1_raw_slice_recovers_name ⟨String.toList "A<", [String.toList "|", String.toList ">"]⟩
     (String.toList "bool") (by decide) (by decide)).2⟩

/-- C2 counterexample: on the identity (GCC/Clang) branch `tidy` returns the
raw name unchanged, so a raw form that does contain a decoration keyword keeps
its whole-word occurrence — the claimed keyword-freedom fails there. -/
theorem c2_counterexample :
    tidyGcc (String.toList "struct A") = String.toList "struct A" ∧
    ¬ noKw (tidyGcc (String.toList "struct A")) :=
  ⟨rfl, by decide⟩

/-- C2 (amended): on the stripping (MSVC) branch the tidy name contains no
whole-word occurrence of any decoration keyword, for raw forms containing them
zero, one, or many times, nested or not; on the identity (GCC/Clang) branch
the tidy form equals the raw form, so the keyword-freedom holds there only
because those compilers' raw forms contain no decoration keywords. -/
theorem c2_no_keyword_in_tidy (name : List Char) (hW : name.length < usizeMod) :
    noKw (tidyMsvc name) ∧ tidyGcc name = name :=
  ⟨noKw_tidyMsvc hW, rfl⟩

theorem c2_witness :
    (String.toList "enum E+struct S").length < usizeMod ∧
    noKw (tidyMsvc (String.toList "enum E+struct S")) ∧
    tidyGcc (String.toList "enum E+struct S") = String.toList "enum E+struct S" := by
  refine ⟨by decide, ?_, ?_⟩
  · exact (c2_no_keyword_in_tidy (String.toList "enum E+struct S") (by decide)).1
  · exact (c2_no_keyword_in_tidy (String.toList "enum E+struct S") (by decide)).2

/-- C3: with `num_appearance = L_void - L_int` and
`num_misc_chars = L_void - 4 * num_appearance`, both calibration equations
`num_misc_chars + num_appearance * 3 = L_int` and
`num_misc_chars + num_appearance * 4 = L_void` hold simultaneously, for every
signature shape. -/
theorem c3_calibration_consistency (sh : SigShape) :
    num_misc_chars sh + num_appearance sh * 3 = (sig sh (String.toList "int")).length ∧
    num_misc_chars sh + num_appearance sh * 4 = (sig sh (String.toList "void")).length := by
  rw [num_misc_chars_eq, num_appearance_eq, sig_length, sig_length]
  have h4 : (String.toList "void").length = 4 := by decide
  have h3 : (String.toList "int").length = 3 := by decide
  rw [h4, h3]
  omega

/-- C4: when `num_appearance = 0` the `constexpr` division in `impl<T>::raw`
divides by zero, which is a hard build-time error (modeled as `none`) and
never a silently-returned garbage string; when `num_appearance > 0` the
division is safe and extraction proceeds. -/
theorem c4_zero_appearance_fails_to_build (sh : SigShape) (n : List Char) :
    (num_appearance sh = 0 → rawChecked sh n = none) ∧
    (0 < num_appearance sh → rawChecked sh n = some (raw sh n)) := by
  constructor
  · intro h
    unfold rawChecked
    rw [if_pos h]
  · intro h
    unfold rawChecked
    rw [if_neg (by omega)]

theorem c4_witness :
    num_appearance ⟨String.toList "F", []⟩ = 0 ∧
    rawChecked ⟨String.toList "F", []⟩ (String.toList "bool") = none :=
  ⟨by decide,
   (c4_zero_appearance_fails_to_build ⟨String.toList "F", []⟩
     (String.toList "bool")).1 (by decide)⟩

/-- C5: `fixed_string_t::rfind` returns the largest index `i < size_` whose
character equals `c` when one exists, and the sentinel `npos` when the string
is empty or no occurrence exists (the decrement-before-test loop wraps the
unsigned counter to `npos` in both of those cases). -/
theorem c5_rfind_backward_search (s : fixed_string_t) (c : Char) :
    ((∃ i < s.size_, ch s.data_ i = c) →
      s.rfind c < s.size_ ∧ ch s.data_ (s.rfind c) = c ∧
        ∀ j < s.size_, s.rfind c < j → ch s.data_ j ≠ c) ∧
    ((s.size_ = 0 ∨ ∀ i < s.size_, ch s.data_ i ≠ c) → s.rfind c = npos) :=
  ⟨rfind_spec_found s c, rfind_spec_none s c⟩

theorem c5_witness :
    (∃ i < (7 : Nat), ch (String.toList "ab:cd:e") i = ':') ∧
    (fixed_string_t.rfind ⟨String.toList "ab:cd:e", 7⟩ ':' < 7 ∧
      ch (String.toList "ab:cd:e") (fixed_string_t.rfind ⟨String.toList "ab:cd:e", 7⟩ ':') = ':' ∧
      ∀ j < 7, fixed_string_t.rfind ⟨String.toList "ab:cd:e", 7⟩ ':' < j →
        ch (String.toList "ab:cd:e") j ≠ ':') ∧
    fixed_string_t.rfind ⟨String.toList "abcd", 4⟩ ':' = npos := by
  refine ⟨by decide, ?_, ?_⟩
  · exact (c5_rfind_backward_search ⟨String.toList "ab:cd:e", 7⟩ ':').1 (by decide)
  · exact (c5_rfind_backward_search ⟨String.toList "abcd", 4⟩ ':').2
      (Or.inr (by decide))

/-- C6: for a delimited position and a decoration keyword occurring there in
full, `match` consumes the keyword plus one extra character exactly when the
character immediately following it is a space; and when the keyword is
immediately followed by an identifier character (a prefix of a longer
identifier, e.g. `structA`) `match` returns `0`. -/
theorem c6_match_boundary (str kw : List Char) (pos len : Nat)
    (hkw : kw ∈ kws)
    (_hdelim : pos = 0 ∨ iskey (ch str (pos - 1)) = false) :
    ((∀ i < kw.length, pos + i < len ∧ ch str (pos + i) = ch kw i) →
      (pos + kw.length = len ∨ iskey (ch str (pos + kw.length)) = false) →
      (matchTok str pos len kw = kw.length + 1 ↔
        pos + kw.length < len ∧ ch str (pos + kw.length) = ' ')) ∧
    ((∀ i < kw.length, pos + i < len ∧ ch str (pos + i) = ch kw i) →
      pos + kw.length < len → iskey (ch str (pos + kw.length)) = true →
      matchTok str pos len kw = 0) := by
  have hkwpos := kws_len_pos kw hkw
  constructor
  · intro hocc hrd
    have hmc : matchCount str pos len kw = kw.length :=
      (matchCount_full_iff kw pos).mpr hocc
    have hle : pos + kw.length ≤ len := by
      have := hocc (kw.length - 1) (by omega)
      omega
    constructor
    · intro hv
      by_cases h2 : pos + kw.length = len
      · exfalso
        simp only [matchTok, if_neg (by omega : ¬ matchCount str pos len kw ≠ kw.length),
          if_neg (by omega : ¬ pos + kw.length ≠ len)] at hv
        omega
      · refine ⟨by omega, ?_⟩
        by_cases h4 : ch str (pos + kw.length) = ' '
        · exact h4
        · exfalso
          have hif : iskey (ch str (pos + kw.length)) = false := by
            rcases hrd with h | h
            · omega
            · exact h
          simp only [matchTok, if_neg (by omega : ¬ matchCount str pos len kw ≠ kw.length),
            if_pos (by omega : pos + kw.length ≠ len),
            if_neg (by simp [hif] : ¬ iskey (ch str (pos + kw.length)) = true),
            if_neg h4] at hv
          omega
    · rintro ⟨hlt, hsp⟩
      have hif : iskey (ch str (pos + kw.length)) = false := by
        rw [hsp]
        exact iskey_space
      simp only [matchTok, if_neg (by omega : ¬ matchCount str pos len kw ≠ kw.length),
        if_pos (by omega : pos + kw.length ≠ len),
        if_neg (by simp [hif] : ¬ iskey (ch str (pos + kw.length)) = true),
        if_pos hsp]
      rw [hmc]
  · intro hocc hlt hkeynext
    have hmc : matchCount str pos len kw = kw.length :=
      (matchCount_full_iff kw pos).mpr hocc
    simp only [matchTok, if_neg (by omega : ¬ matchCount str pos len kw ≠ kw.length),
      if_pos (by omega : pos + kw.length ≠ len), if_pos hkeynext]

theorem c6_witness :
    (String.toList "struct") ∈ kws ∧
    matchTok (String.toList "struct Foo") 0 10 (String.toList "struct") =
      (String.toList "struct").length + 1 ∧
    matchTok (String.toList "structA") 0 7 (String.toList "struct") = 0 := by
  refine ⟨by decide, ?_, ?_⟩
  · exact ((c6_match_boundary (String.toList "struct Foo") (String.toList "struct")
      0 10 (by decide) (Or.inl rfl)).1 (by decide) (by decide)).mpr (by decide)
  · exact (c6_match_boundary (String.toList "structA") (String.toList "struct")
      0 7 (by decide) (Or.inl rfl)).2 (by decide) (by decide) (by decide)

/-- C7: for a const- or volatile-qualified type, or a pointer, reference,
array, function, or member-pointer type, `base` returns the tidy name
unchanged: `base(T) = name(T)`. -/
theorem c7_base_qualified_unstripped (sh : TypeShape) (name : List Char)
    (h : sh.is_const = true ∨ sh.is_volatile = true ∨ sh.is_array = true ∨
      sh.is_pointer = true ∨ sh.is_reference = true ∨ sh.is_function = true ∨
      sh.is_member_pointer = true) :
    base sh name = name := by
  have hq : isQualified sh = true := by
    unfold isQualified
    rcases h with h | h | h | h | h | h | h <;> simp [h]
  unfold base
  rw [if_pos hq]

theorem c7_witness :
    ((⟨false, false, false, true, false, false, false⟩ : TypeShape).is_pointer = true) ∧
    base ⟨false, false, false, true, false, false, false⟩ (String.toList "t::S*") =
      String.toList "t::S*" :=
  ⟨rfl, c7_base_qualified_unstripped ⟨false, false, false, true, false, false, false⟩
    (String.toList "t::S*") (Or.inr (Or.inr (Or.inr (Or.inl rfl))))⟩

/-- C8: for a plain value type (no qualification flag set), `base` contains no
scope-separator character: it equals the tidy name when the tidy name has no
`':'`, and otherwise it is the substring strictly after the last `':'`. -/
theorem c8_base_unqualified (sh : TypeShape) (name : List Char)
    (hq : isQualified sh = false) (hW : name.length < usizeMod) :
    (':' ∉ base sh name) ∧
    (':' ∉ name → base sh name = name) ∧
    (':' ∈ name → base sh name =
      name.drop (fixed_string_t.rfind ⟨name, name.length⟩ ':' + 1)) := by
  by_cases hmem : ':' ∈ name
  · have hex : ∃ i < name.length, ch name i = ':' := ch_mem_iff.mp hmem
    obtain ⟨hlt, hat, hmax⟩ := rfind_spec_found ⟨name, name.length⟩ ':' hex
    have hsz : (⟨name, name.length⟩ : fixed_string_t).size_ = name.length := rfl
    rw [hsz] at hlt hmax
    have hne : ¬ fixed_string_t.rfind ⟨name, name.length⟩ ':' = npos := by
      simp only [npos, usizeMod] at *
      omega
    have hbase : base sh name =
        name.drop (fixed_string_t.rfind ⟨name, name.length⟩ ':' + 1) := by
      unfold base
      rw [if_neg (by simp [hq]), if_neg hne]
    refine ⟨?_, fun hno => absurd hmem hno, fun _ => hbase⟩
    rw [hbase]
    intro hmem2
    obtain ⟨i, hi, hci⟩ := ch_mem_iff.mp hmem2
    rw [List.length_drop] at hi
    rw [ch_drop] at hci
    exact hmax (fixed_string_t.rfind ⟨name, name.length⟩ ':' + 1 + i)
      (by omega) (by omega) hci
  · have hnone : ∀ i < name.length, ch name i ≠ ':' := by
      intro i hi hc
      exact hmem (ch_mem_iff.mpr ⟨i, hi, hc⟩)
    have heq : fixed_string_t.rfind ⟨name, name.length⟩ ':' = npos :=
      rfind_spec_none _ _ (Or.inr hnone)
    have hbase : base sh name = name := by
      unfold base
      rw [if_neg (by simp [hq]), if_pos heq]
    rw [hbase]
    exact ⟨hmem, fun _ => rfl, fun h => absurd h hmem⟩

theorem c8_witness :
    isQualified ⟨false, false, false, false, false, false, false⟩ = false ∧
    (String.toList "t::S").length < usizeMod ∧
    ':' ∉ base ⟨false, false, false, false, false, false, false⟩ (String.toList "t::S") :=
  ⟨rfl, by decide,
   (c8_base_unqualified ⟨false, false, false, false, false, false, false⟩
     (String.toList "t::S") rfl (by decide)).1⟩

/-- C9 counterexample: the stripping transformation is not idempotent on every
input — `tidy "A struct"` is `"A "` (the trailing-space strip tests the input's
last characters, which here end in `t`), and a second pass strips the space,
giving `"A"`. -/
theorem c9_counterexample :
    tidyMsvc (tidyMsvc (String.toList "A struct")) ≠ tidyMsvc (String.toList "A struct") := by
  decide

/-- C9 (amended): the stripping transformation is idempotent on every input
name whose once-stripped form has no trailing space (for other inputs the
second pass additionally strips the trailing spaces left by the first, because
the trailing-space strip examines the input rather than the output); the
identity (GCC/Clang) branch is idempotent unconditionally. -/
theorem c9_idempotent_no_trailing_space (name : List Char)
    (hW : name.length < usizeMod)
    (hts : stripCount (tidyMsvc name) (tidyMsvc name).length = 0) :
    tidyMsvc (tidyMsvc name) = tidyMsvc name ∧
    tidyGcc (tidyGcc name) = tidyGcc name := by
  refine ⟨?_, rfl⟩
  have hlen : (tidyMsvc name).length ≤ name.length := by
    rw [tidyMsvc_eq_take, List.length_take]
    have hkl := length_keptGo (Nat.le_refl name.length) (name.length + 1) 0
    have := @cntGo_le name name.length (name.length + 1) 0
    omega
  exact tidyMsvc_of_noKw (by omega) (noKw_tidyMsvc hW) hts

theorem c9_witness :
    (String.toList "struct A").length < usizeMod ∧
    stripCount (tidyMsvc (String.toList "struct A"))
      (tidyMsvc (String.toList "struct A")).length = 0 ∧
    tidyMsvc (tidyMsvc (String.toList "struct A")) = tidyMsvc (String.toList "struct A") :=
  ⟨by decide, by decide,
   (c9_idempotent_no_trailing_space (String.toList "struct A")
     (by decide) (by decide)).1⟩

/-- C10: on the stripping (MSVC) branch, the counting pass `dry` and the
copying pass `tidy` agree — the logical length of the tidy string equals the
size returned by `dry` — whenever the trailing-space strip does not underflow
(the strip count is at most the kept-character count, which holds for every
name not ending in a decoration keyword followed by spaces). -/
theorem c10_dry_eq_tidy_length (name : List Char) (hW : name.length < usizeMod)
    (hns : stripCount name name.length ≤ cntGo name name.length (name.length + 1) 0) :
    (tidyMsvc name).length = dry name := by
  rw [tidyMsvc_eq_take, List.length_take]
  rw [length_keptGo (Nat.le_refl _) _ 0]
  rw [dry_eq_sub hW hns]
  omega

theorem c10_witness :
    (String.toList "struct Foo").length < usizeMod ∧
    stripCount (String.toList "struct Foo") (String.toList "struct Foo").length ≤
      cntGo (String.toList "struct Foo") (String.toList "struct Foo").length
        ((String.toList "struct Foo").length + 1) 0 ∧
    (tidyMsvc (String.toList "struct Foo")).length = dry (String.toList "struct Foo") :=
  ⟨by decide, by decide,
   c10_dry_eq_tidy_length (String.toList "struct Foo") (by decide) (by decide)⟩

end TypeName
